import Mathlib

set_option maxRecDepth 16000
set_option maxHeartbeats 1000000

/- Verification development for the hotnumber lottery analysis and
   recommendation program.  The definitions below are shallow embeddings of
   the Python sources crawler.py, analyze_pattern.py and recommend_numbers.py:
   pure functions become Lean functions, the random draws of the sampling
   loops become an explicit oracle stream of natural numbers, and the
   unbounded while loops become fuel-indexed recursions returning
   Option (none marks fuel exhaustion, i.e. the loop has not terminated
   within the given bound). -/

/-- A per-round draw record as stored by crawler.save_result and loaded by
LottoAnalyzer.  Only the fields read by the analysis and recommendation code
are modelled: the round number, the list of six main numbers and the bonus
number (the winners and amount_per_winner fields are never read back). -/
structure DrawRec where
  round : Nat
  numbers : List Nat
  bonus : Nat
deriving DecidableEq

/-- Python sorted(...) on a list of integers: stable ascending sort. -/
def sortNums (l : List Nat) : List Nat := l.insertionSort (· ≤ ·)

/-- Count of odd numbers, sum(1 for n in numbers if n % 2 != 0). -/
def oddCount (numbers : List Nat) : Nat :=
  numbers.countP (fun n => decide (n % 2 ≠ 0))

/-- Count of high numbers, sum(1 for n in numbers if n >= 23). -/
def highCount (numbers : List Nat) : Nat :=
  numbers.countP (fun n => decide (23 ≤ n))

/-- The loop for i in range(len(sorted_nums)-2) of _check_filters: detects a
run of three consecutive integers sorted_nums[i]+1 = sorted_nums[i+1] and
sorted_nums[i]+2 = sorted_nums[i+2] in the sorted list. -/
def hasRun3 : List Nat → Bool
  | a :: b :: c :: rest =>
      (decide (b = a + 1) && decide (c = a + 2)) || hasRun3 (b :: c :: rest)
  | _ => false

/-- The set of pairwise differences sorted_nums[j] - sorted_nums[i] collected
over index pairs i < j < m.  LottoRecommender._check_filters hardcodes m = 6
(for i in range(6)); crawler.calculate_analysis_data uses
m = len(sorted_nums), which agrees on the six-element lists both receive. -/
def diffsUpTo (m : Nat) (l : List Nat) : Finset Nat :=
  (((Finset.range m) ×ˢ (Finset.range m)).filter (fun p => p.1 < p.2)).image
    (fun p => l.getD p.2 0 - l.getD p.1 0)

/-- AC value ac = len(diffs) - 5 as computed in _check_filters; Python ints
may go negative, so the result lives in Int. -/
def acValue6 (sorted_nums : List Nat) : Int :=
  ((diffsUpTo 6 sorted_nums).card : Int) - 5

/-- LottoRecommender._check_filters: the five statistical plausibility rules,
applied in order with early false returns. -/
def check_filters (numbers : List Nat) : Bool :=
  if ¬ (100 ≤ numbers.sum ∧ numbers.sum ≤ 200) then false
  else if oddCount numbers = 0 ∨ oddCount numbers = 6 then false
  else if highCount numbers = 0 ∨ highCount numbers = 6 then false
  else if hasRun3 (sortNums numbers) then false
  else if acValue6 (sortNums numbers) < 7 then false
  else true

/-- C2: for every list of 6 distinct integers in [1,45], check_filters
returns true iff all five conditions hold: sum in [100,200], odd count
strictly between 0 and 6, count of numbers at least 23 strictly between 0
and 6, no run of 3 consecutive integers in the sorted sequence, and the AC
value at least 7.  The early returns of the code are equivalent to the
conjunction of the five rules. -/
theorem check_filters_iff_five_rules (numbers : List Nat)
    (h6 : numbers.length = 6) (hnd : numbers.Nodup)
    (hr : ∀ n ∈ numbers, 1 ≤ n ∧ n ≤ 45) :
    check_filters numbers = true ↔
      ((100 ≤ numbers.sum ∧ numbers.sum ≤ 200) ∧
       (0 < oddCount numbers ∧ oddCount numbers < 6) ∧
       (0 < highCount numbers ∧ highCount numbers < 6) ∧
       hasRun3 (sortNums numbers) = false ∧
       7 ≤ acValue6 (sortNums numbers)) := by
  have hodds : oddCount numbers ≤ 6 := by
    have := List.countP_le_length (l := numbers) (fun n => decide (n % 2 ≠ 0))
    simpa [oddCount, h6] using this
  have hhighs : highCount numbers ≤ 6 := by
    have := List.countP_le_length (l := numbers) (fun n => decide (23 ≤ n))
    simpa [highCount, h6] using this
  constructor
  · intro h
    unfold check_filters at h
    have c1 : ¬ ¬ (100 ≤ numbers.sum ∧ numbers.sum ≤ 200) := by
      intro hc
      rw [if_pos hc] at h
      exact Bool.false_ne_true h
    rw [if_neg c1] at h
    have c2 : ¬ (oddCount numbers = 0 ∨ oddCount numbers = 6) := by
      intro hc
      rw [if_pos hc] at h
      exact Bool.false_ne_true h
    rw [if_neg c2] at h
    have c3 : ¬ (highCount numbers = 0 ∨ highCount numbers = 6) := by
      intro hc
      rw [if_pos hc] at h
      exact Bool.false_ne_true h
    rw [if_neg c3] at h
    have c4 : ¬ (hasRun3 (sortNums numbers) = true) := by
      intro hc
      rw [if_pos hc] at h
      exact Bool.false_ne_true h
    rw [if_neg c4] at h
    have c5 : ¬ (acValue6 (sortNums numbers) < 7) := by
      intro hc
      rw [if_pos hc] at h
      exact Bool.false_ne_true h
    rw [not_or] at c2 c3
    refine ⟨not_not.mp c1, ⟨?_, ?_⟩, ⟨?_, ?_⟩, ?_, ?_⟩
    · omega
    · omega
    · omega
    · omega
    · exact Bool.not_eq_true _ ▸ c4
    · omega
  · rintro ⟨hs, ho, hh, hrun, hac⟩
    unfold check_filters
    rw [if_neg (not_not_intro hs)]
    rw [if_neg (show ¬ (oddCount numbers = 0 ∨ oddCount numbers = 6) by omega)]
    rw [if_neg (show ¬ (highCount numbers = 0 ∨ highCount numbers = 6) by omega)]
    rw [if_neg (show ¬ (hasRun3 (sortNums numbers) = true) by simp [hrun])]
    rw [if_neg (show ¬ (acValue6 (sortNums numbers) < 7) by omega)]

/-- Concrete witness for C2 at the set {2,5,11,19,33,40}. -/
theorem check_filters_iff_five_rules_witness :
    ((List.length [2, 5, 11, 19, 33, 40] = 6) ∧
      List.Nodup [2, 5, 11, 19, 33, 40] ∧
      (∀ n ∈ [2, 5, 11, 19, 33, 40], 1 ≤ n ∧ n ≤ 45)) ∧
    check_filters [2, 5, 11, 19, 33, 40] = true :=
  ⟨⟨by decide, by decide, by decide⟩,
    (check_filters_iff_five_rules [2, 5, 11, 19, 33, 40] (by decide) (by decide)
      (by decide)).mpr (by decide)⟩

/-- Ascending sort of a list is a permutation of it. -/
theorem sortNums_perm (l : List Nat) : (sortNums l).Perm l :=
  List.perm_insertionSort _ l

/-- Ascending sort of a list is sorted. -/
theorem sortNums_sorted (l : List Nat) : (sortNums l).Sorted (· ≤ ·) :=
  List.sorted_insertionSort _ l

/-- Sorting preserves length. -/
theorem sortNums_length (l : List Nat) : (sortNums l).length = l.length :=
  (sortNums_perm l).length_eq

/-- Sorting a duplicate-free list gives a strictly sorted list. -/
theorem sortNums_sorted_lt (l : List Nat) (hnd : l.Nodup) :
    (sortNums l).Sorted (· < ·) :=
  (sortNums_sorted l).lt_of_le ((sortNums_perm l).nodup_iff.mpr hnd)

/-- C9: check_filters is a pure, deterministic function of the candidate set:
it depends only on the multiset of input numbers, so reordering the six
numbers never changes the verdict. -/
theorem check_filters_perm_invariant (l1 l2 : List Nat)
    (h6 : l1.length = 6) (hnd : l1.Nodup) (hr : ∀ n ∈ l1, 1 ≤ n ∧ n ≤ 45)
    (hp : l1.Perm l2) :
    check_filters l1 = check_filters l2 := by
  have hsort : sortNums l1 = sortNums l2 :=
    List.eq_of_perm_of_sorted
      (((sortNums_perm l1).trans hp).trans (sortNums_perm l2).symm)
      (sortNums_sorted l1) (sortNums_sorted l2)
  unfold check_filters
  rw [hp.sum_eq, show oddCount l1 = oddCount l2 from hp.countP_eq _,
    show highCount l1 = highCount l2 from hp.countP_eq _, hsort]

/-- Concrete witness for C9: a reversal of a valid six-number set. -/
theorem check_filters_perm_invariant_witness :
    ((List.length [2, 5, 11, 19, 33, 40] = 6) ∧
      List.Nodup [2, 5, 11, 19, 33, 40] ∧
      (∀ n ∈ [2, 5, 11, 19, 33, 40], 1 ≤ n ∧ n ≤ 45) ∧
      List.Perm [2, 5, 11, 19, 33, 40] [40, 33, 19, 11, 5, 2]) ∧
    check_filters [2, 5, 11, 19, 33, 40] = check_filters [40, 33, 19, 11, 5, 2] :=
  ⟨⟨by decide, by decide, by decide, by decide⟩,
    check_filters_perm_invariant [2, 5, 11, 19, 33, 40] [40, 33, 19, 11, 5, 2]
      (by decide) (by decide) (by decide) (by decide)⟩

/-- Derived metrics of crawler.calculate_analysis_data.  The two ratio
strings keep their computed shape; field names drop the ratio suffix. -/
structure AnalysisData where
  odd_even : String
  sum_value : Nat
  ac_value : Int
  high_low : String
deriving DecidableEq

/-- crawler.calculate_analysis_data: per-draw derived metrics.  The bonus
argument is accepted and never used, exactly as in the source. -/
def calculate_analysis_data (numbers : List Nat) (_bonus : Nat) : AnalysisData :=
  { odd_even := toString (oddCount numbers) ++ ":" ++ toString (6 - oddCount numbers)
    sum_value := numbers.sum
    ac_value :=
      ((diffsUpTo (sortNums numbers).length (sortNums numbers)).card : Int) - 5
    high_low := toString (highCount numbers) ++ ":" ++ toString (6 - highCount numbers) }

/-- Modelled from the spec wording for comparison (refinement target): the
set of all pairwise positive differences among the numbers themselves, one
per unordered pair of distinct members. -/
def specDiffs (numbers : List Nat) : Finset Nat :=
  ((numbers.toFinset ×ˢ numbers.toFinset).filter (fun p => p.1 < p.2)).image
    (fun p => p.2 - p.1)

/-- On strictly sorted lists, positions order the values. -/
theorem sorted_get_lt {s : List Nat} (hs : s.Sorted (· < ·))
    {i j : Fin s.length} (hij : (i : Nat) < (j : Nat)) : s.get i < s.get j :=
  List.pairwise_iff_get.mp hs i j hij

/-- The index-pair difference set of the sorted list equals the value-pair
difference set of the original numbers, for duplicate-free inputs. -/
theorem diffsUpTo_eq_specDiffs (numbers : List Nat) (hnd : numbers.Nodup) :
    diffsUpTo (sortNums numbers).length (sortNums numbers) = specDiffs numbers := by
  have hperm := sortNums_perm numbers
  have hlt : (sortNums numbers).Sorted (· < ·) := sortNums_sorted_lt numbers hnd
  ext x
  simp only [diffsUpTo, specDiffs, Finset.mem_image, Finset.mem_filter,
    Finset.mem_product, Finset.mem_range, List.mem_toFinset]
  constructor
  · rintro ⟨⟨i, j⟩, ⟨⟨hi, hj⟩, hij⟩, rfl⟩
    refine ⟨((sortNums numbers).get ⟨i, hi⟩, (sortNums numbers).get ⟨j, hj⟩),
      ⟨⟨?_, ?_⟩, ?_⟩, ?_⟩
    · exact hperm.mem_iff.mp ((sortNums numbers).get_mem _ _)
    · exact hperm.mem_iff.mp ((sortNums numbers).get_mem _ _)
    · exact sorted_get_lt hlt hij
    · rw [List.getD_eq_getElem _ _ hj, List.getD_eq_getElem _ _ hi]
      rfl
  · rintro ⟨⟨a, b⟩, ⟨⟨ha, hb⟩, hab⟩, rfl⟩
    obtain ⟨i, hi⟩ := List.mem_iff_get.mp (hperm.mem_iff.mpr ha)
    obtain ⟨j, hj⟩ := List.mem_iff_get.mp (hperm.mem_iff.mpr hb)
    have hij : (i : Nat) < (j : Nat) := by
      rcases lt_trichotomy (i : Nat) (j : Nat) with h | h | h
      · exact h
      · exfalso
        have : a = b := by
          have hij' : i = j := Fin.ext h
          rw [hij', hj] at hi
          exact hi.symm
        omega
      · exfalso
        have := sorted_get_lt hlt h
        rw [hi, hj] at this
        omega
    refine ⟨((i : Nat), (j : Nat)), ⟨⟨i.isLt, j.isLt⟩, hij⟩, ?_⟩
    rw [List.getD_eq_getElem _ _ j.isLt, List.getD_eq_getElem _ _ i.isLt]
    show (sortNums numbers).get j - (sortNums numbers).get i = b - a
    rw [hi, hj]

/-- At most 15 distinct pairwise differences arise from 6 numbers. -/
theorem diffsUpTo_six_card_le (l : List Nat) : (diffsUpTo 6 l).card ≤ 15 := by
  unfold diffsUpTo
  refine le_trans (Finset.card_image_le) ?_
  have : (((Finset.range 6) ×ˢ (Finset.range 6)).filter
      (fun p => p.1 < p.2)).card = 15 := by decide
  omega

/-- At least 5 distinct pairwise differences arise from 6 distinct numbers:
the differences against the largest element are pairwise distinct. -/
theorem five_le_diffsUpTo_six_card (l : List Nat) (h6 : l.length = 6)
    (hlt : l.Sorted (· < ·)) : 5 ≤ (diffsUpTo 6 l).card := by
  have hget : ∀ (i j : Nat) (hi : i < 6) (hj : j < 6), i < j →
      l.getD i 0 < l.getD j 0 := by
    intro i j hi hj hij
    have hi' : i < l.length := by omega
    have hj' : j < l.length := by omega
    rw [List.getD_eq_getElem _ _ hi', List.getD_eq_getElem _ _ hj']
    exact sorted_get_lt hlt (i := ⟨i, hi'⟩) (j := ⟨j, hj'⟩) hij
  have hsub : (Finset.range 5).image (fun i => l.getD 5 0 - l.getD i 0) ⊆
      diffsUpTo 6 l := by
    intro x hx
    rw [Finset.mem_image] at hx
    obtain ⟨i, hi, rfl⟩ := hx
    rw [Finset.mem_range] at hi
    unfold diffsUpTo
    rw [Finset.mem_image]
    refine ⟨(i, 5), ?_, rfl⟩
    rw [Finset.mem_filter, Finset.mem_product, Finset.mem_range, Finset.mem_range]
    exact ⟨⟨by omega, by omega⟩, hi⟩
  have hcard : ((Finset.range 5).image (fun i => l.getD 5 0 - l.getD i 0)).card = 5 := by
    rw [Finset.card_image_of_injOn, Finset.card_range]
    intro i hi j hj hij
    rw [Finset.mem_coe, Finset.mem_range] at hi hj
    have hij' : l.getD 5 0 - l.getD i 0 = l.getD 5 0 - l.getD j 0 := hij
    rcases lt_trichotomy i j with h | h | h
    · exfalso
      have h1 := hget i j (by omega) (by omega) h
      have h2 := hget i 5 (by omega) (by omega) (by omega)
      have h3 := hget j 5 (by omega) (by omega) (by omega)
      omega
    · exact h
    · exfalso
      have h1 := hget j i (by omega) (by omega) h
      have h2 := hget i 5 (by omega) (by omega) (by omega)
      have h3 := hget j 5 (by omega) (by omega) (by omega)
      omega
  calc 5 = ((Finset.range 5).image (fun i => l.getD 5 0 - l.getD i 0)).card :=
        hcard.symm
    _ ≤ (diffsUpTo 6 l).card := Finset.card_le_card hsub

/-- C3: for every 6-element duplicate-free list of integers in [1,45], the AC
value computed by the program (both in crawler.calculate_analysis_data and in
the recommender's filter) equals the number of distinct pairwise differences
among the six numbers minus 5, and that value lies in [0,10]. -/
theorem ac_value_eq_distinct_diffs_sub_five (numbers : List Nat)
    (h6 : numbers.length = 6) (hnd : numbers.Nodup)
    (hr : ∀ n ∈ numbers, 1 ≤ n ∧ n ≤ 45) :
    (calculate_analysis_data numbers 0).ac_value =
        ((specDiffs numbers).card : Int) - 5 ∧
    acValue6 (sortNums numbers) = ((specDiffs numbers).card : Int) - 5 ∧
    0 ≤ (calculate_analysis_data numbers 0).ac_value ∧
    (calculate_analysis_data numbers 0).ac_value ≤ 10 := by
  have hslen : (sortNums numbers).length = 6 := by rw [sortNums_length, h6]
  have heq := diffsUpTo_eq_specDiffs numbers hnd
  have hcard_le : (specDiffs numbers).card ≤ 15 := by
    rw [← heq, hslen]
    exact diffsUpTo_six_card_le _
  have hcard_ge : 5 ≤ (specDiffs numbers).card := by
    rw [← heq, hslen]
    exact five_le_diffsUpTo_six_card _ hslen (sortNums_sorted_lt numbers hnd)
  have hprog : (calculate_analysis_data numbers 0).ac_value =
      ((specDiffs numbers).card : Int) - 5 := by
    show ((diffsUpTo (sortNums numbers).length (sortNums numbers)).card : Int) - 5 =
      ((specDiffs numbers).card : Int) - 5
    rw [heq]
  have hrec : acValue6 (sortNums numbers) = ((specDiffs numbers).card : Int) - 5 := by
    unfold acValue6
    rw [← hslen, heq]
  refine ⟨hprog, hrec, ?_, ?_⟩ <;> rw [hprog] <;> omega

/-- Concrete witness for C3 at the set {2,5,11,19,33,40}. -/
theorem ac_value_eq_distinct_diffs_sub_five_witness :
    ((List.length [2, 5, 11, 19, 33, 40] = 6) ∧
      List.Nodup [2, 5, 11, 19, 33, 40] ∧
      (∀ n ∈ [2, 5, 11, 19, 33, 40], 1 ≤ n ∧ n ≤ 45)) ∧
    ((calculate_analysis_data [2, 5, 11, 19, 33, 40] 0).ac_value =
        ((specDiffs [2, 5, 11, 19, 33, 40]).card : Int) - 5 ∧
      acValue6 (sortNums [2, 5, 11, 19, 33, 40]) =
        ((specDiffs [2, 5, 11, 19, 33, 40]).card : Int) - 5 ∧
      0 ≤ (calculate_analysis_data [2, 5, 11, 19, 33, 40] 0).ac_value ∧
      (calculate_analysis_data [2, 5, 11, 19, 33, 40] 0).ac_value ≤ 10) :=
  ⟨⟨by decide, by decide, by decide⟩,
    ac_value_eq_distinct_diffs_sub_five [2, 5, 11, 19, 33, 40]
      (by decide) (by decide) (by decide)⟩

/-- The numbers list 1..45, the key list of every weighting dict built with
a comprehension over range(1, 46). -/
def numbers45 : List Nat := List.range' 1 45

/-- Members of a weighted population that random.choices can actually
return: those whose weight is positive (zero-weight entries have selection
probability zero). -/
def positiveSupport (population probs : List Nat) : List Nat :=
  ((population.zip probs).filter (fun p => decide (0 < p.2))).map Prod.fst

/-- One call random.choices(population, weights=probs, k=1)[0] with
non-negative integer weights, CPython semantics: if the total weight is
zero (equivalently, no entry has positive weight) it raises
ValueError('Total of weights must be greater than zero'); otherwise it
returns some positive-weight member.  The draw oracle value r selects which
one, adversarially, by indexing into the positive-weight sublist. -/
def random_choices_pick (population probs : List Nat) (r : Nat) :
    Except String Nat :=
  if h : (positiveSupport population probs).length = 0 then
    Except.error "Total of weights must be greater than zero"
  else
    Except.ok ((positiveSupport population probs).getD
      (r % (positiveSupport population probs).length) 0)

/-- Python set.add on a set modelled as a duplicate-free list. -/
def dedupCons (x : Nat) (l : List Nat) : List Nat :=
  if x ∈ l then l else x :: l

/-- The while len(selected) < 6 loop shared by _generate_weighted_set and
the fill phase of _generate_pair_based_set.  ρ is the stream of draw-oracle
values, k the position in the stream, fuel the iteration bound of the
model; Except.ok none means the loop was still running when fuel ran out.
On normal exit it returns sorted(list(selected)) and the next stream
position. -/
def fillLoop (population probs : List Nat) (rho : Nat → Nat) :
    Nat → Nat → List Nat → Except String (Option (List Nat × Nat))
  | 0, _, _ => Except.ok none
  | fuel + 1, k, selected =>
    if 6 ≤ selected.length then Except.ok (some (sortNums selected, k))
    else
      match random_choices_pick population probs (rho k) with
      | Except.error e => Except.error e
      | Except.ok pick => fillLoop population probs rho fuel (k + 1) (dedupCons pick selected)

/-- LottoRecommender._generate_weighted_set: draw with the given weights
until 6 distinct numbers are collected, then return them sorted. -/
def generate_weighted_set (population probs : List Nat) (rho : Nat → Nat)
    (k fuel : Nat) : Except String (Option (List Nat × Nat)) :=
  fillLoop population probs rho fuel k []

/-- A weight map that gives weight 1 to the number 3 and weight 0 to every
other number: a pathological input under which 6 distinct numbers can never
be collected. -/
def probsOnly3 : List Nat := numbers45.map (fun n => if n = 3 then 1 else 0)

/-- A pick never returns an element outside the positive support. -/
theorem random_choices_pick_mem (population probs : List Nat) (r pick : Nat)
    (h : random_choices_pick population probs r = Except.ok pick) :
    pick ∈ positiveSupport population probs := by
  unfold random_choices_pick at h
  by_cases hlen : (positiveSupport population probs).length = 0
  · rw [dif_pos hlen] at h
    cases h
  · rw [dif_neg hlen] at h
    have hpos : 0 < (positiveSupport population probs).length := Nat.pos_of_ne_zero hlen
    have hidx : r % (positiveSupport population probs).length <
        (positiveSupport population probs).length := Nat.mod_lt _ hpos
    cases h
    rw [List.getD_eq_getElem _ _ hidx]
    exact (positiveSupport population probs).getElem_mem hidx

/-- Adding to a duplicate-free set keeps it duplicate-free. -/
theorem dedupCons_nodup (x : Nat) (l : List Nat) (h : l.Nodup) :
    (dedupCons x l).Nodup := by
  unfold dedupCons
  split_ifs with hx
  · exact h
  · exact List.nodup_cons.mpr ⟨hx, h⟩

/-- Membership after a set insertion. -/
theorem mem_dedupCons (y x : Nat) (l : List Nat) :
    y ∈ dedupCons x l ↔ y = x ∨ y ∈ l := by
  unfold dedupCons
  split_ifs with hx
  · constructor
    · exact fun hy => Or.inr hy
    · rintro (rfl | hy)
      · exact hx
      · exact hy
  · exact List.mem_cons

/-- Set insertion grows the size by at most one. -/
theorem dedupCons_length_le (x : Nat) (l : List Nat) :
    (dedupCons x l).length ≤ l.length + 1 := by
  unfold dedupCons
  split_ifs with hx
  · omega
  · simp

/-- When fewer than 6 numbers carry positive weight (but at least one does),
the sampling loop never terminates: for every fuel bound it is still
running, and it never reports an error. -/
theorem fillLoop_small_support (population probs : List Nat)
    (hne : positiveSupport population probs ≠ [])
    (hlt : (positiveSupport population probs).length < 6) (rho : Nat → Nat) :
    ∀ (fuel k : Nat) (sel : List Nat), sel.Nodup →
      (∀ x ∈ sel, x ∈ positiveSupport population probs) →
      fillLoop population probs rho fuel k sel = Except.ok none := by
  intro fuel
  induction fuel with
  | zero => intro k sel _ _; rfl
  | succ n ih =>
    intro k sel hnd hsub
    have hsellen : sel.length < 6 := by
      have h1 : sel.toFinset.card = sel.length := List.toFinset_card_of_nodup hnd
      have h2 : sel.toFinset ⊆ (positiveSupport population probs).toFinset := by
        intro x hx
        rw [List.mem_toFinset] at hx ⊢
        exact hsub x hx
      have h3 := Finset.card_le_card h2
      have h4 := (positiveSupport population probs).toFinset_card_le
      omega
    have hnz : ¬ (positiveSupport population probs).length = 0 := by
      intro hc
      exact hne (List.length_eq_zero.mp hc)
    have hpick : random_choices_pick population probs (rho k) =
        Except.ok ((positiveSupport population probs).getD
          (rho k % (positiveSupport population probs).length) 0) := by
      unfold random_choices_pick
      rw [dif_neg hnz]
    rw [fillLoop, if_neg (by omega), hpick]
    refine ih (k + 1) _ (dedupCons_nodup _ _ hnd) ?_
    intro x hx
    rcases (mem_dedupCons x _ sel).mp hx with rfl | hx'
    · exact random_choices_pick_mem _ _ _ _ hpick
    · exact hsub x hx'

/-- C5 counterexample: give positive weight only to the number 3, so that 6
distinct numbers can never be collected.  The sampling primitive then never
fails with an error at any iteration count: there is no cap at which it
fails fast, contradicting the claimed behaviour. -/
theorem weighted_sampling_no_cap_counterexample :
    ¬ ∃ (fuel k : Nat) (e : String),
      generate_weighted_set numbers45 probsOnly3 (fun i => i) k fuel =
        Except.error e := by
  rintro ⟨fuel, k, e, h⟩
  rw [show generate_weighted_set numbers45 probsOnly3 (fun i => i) k fuel =
      Except.ok none from
    fillLoop_small_support _ _ (by decide) (by decide) _ fuel k []
      List.nodup_nil (by simp)] at h
  cases h

/-- C5 (amended): the weighted-sampling primitive enforces no iteration cap.
For every weight map under which 6 distinct numbers cannot be collected but
at least one number has positive weight, the loop neither terminates nor
reports an error: at every iteration bound it is still running. -/
theorem weighted_sampling_no_cap_diverges (population probs : List Nat)
    (rho : Nat → Nat) (k fuel : Nat)
    (hne : positiveSupport population probs ≠ [])
    (hlt : (positiveSupport population probs).length < 6) :
    generate_weighted_set population probs rho k fuel = Except.ok none :=
  fillLoop_small_support population probs hne hlt rho fuel k []
    List.nodup_nil (by simp)

/-- Concrete witness for the amended C5 at the weight map that is positive
only at 3, with stream position 0 and fuel 30. -/
theorem weighted_sampling_no_cap_diverges_witness :
    (positiveSupport numbers45 probsOnly3 ≠ [] ∧
      (positiveSupport numbers45 probsOnly3).length < 6) ∧
    generate_weighted_set numbers45 probsOnly3 (fun i => i) 0 30 =
      Except.ok none :=
  ⟨⟨by decide, by decide⟩,
    weighted_sampling_no_cap_diverges numbers45 probsOnly3 (fun i => i) 0 30
      (by decide) (by decide)⟩

/-- Counter of number occurrences over the main numbers of a data slice,
LottoRecommender._get_hot_numbers viewed as a function from number to
count. -/
def get_hot_numbers (data : List DrawRec) (n : Nat) : Nat :=
  ((data.map DrawRec.numbers).flatten).count n

/-- C6: the weights {n: total_counts.get(n, 0)} built by the global-balance
strategy from an empty record history are all zero, and on such an all-zero
weight map the sampling primitive fails on its first draw with the CPython
random.choices error message, rather than looping forever or dividing by
zero. -/
theorem all_zero_weights_fail_fast :
    (∀ n : Nat, get_hot_numbers [] n = 0) ∧
    (∀ (rho : Nat → Nat) (k fuel : Nat),
      generate_weighted_set numbers45 (numbers45.map (get_hot_numbers [])) rho
          k (fuel + 1) =
        Except.error "Total of weights must be greater than zero") := by
  constructor
  · intro n
    rfl
  · intro rho k fuel
    have hsup : positiveSupport numbers45 (numbers45.map (get_hot_numbers [])) = [] := by
      decide
    have hpick : random_choices_pick numbers45 (numbers45.map (get_hot_numbers []))
        (rho k) = Except.error "Total of weights must be greater than zero" := by
      unfold random_choices_pick
      rw [dif_pos (by rw [hsup]; rfl)]
    show fillLoop _ _ _ (fuel + 1) k [] = _
    rw [fillLoop, if_neg (by decide), hpick]

/-- Stable insertion into a list kept sorted by descending key, placing the
new element before the first strictly smaller key and after equal keys:
the insertion step of Python sorted(..., reverse=True) semantics. -/
def insertDescBy {α : Type} (key : α → Nat) (x : α) : List α → List α
  | [] => [x]
  | y :: ys => if key y ≤ key x then x :: y :: ys else y :: insertDescBy key x ys

/-- Python sorted(items, key=..., reverse=True): stable descending sort by a
natural-number key (also the documented behaviour of Counter.most_common). -/
def sortDescBy {α : Type} (key : α → Nat) (l : List α) : List α :=
  l.foldr (insertDescBy key) []

/-- Descending insertion permutes the extended list. -/
theorem insertDescBy_perm {α : Type} (key : α → Nat) (x : α) (l : List α) :
    (insertDescBy key x l).Perm (x :: l) := by
  induction l with
  | nil => rfl
  | cons y ys ih =>
    rw [insertDescBy]
    split_ifs with h
    · rfl
    · exact (ih.cons y).trans (List.Perm.swap x y ys)

/-- Descending sort permutes the input. -/
theorem sortDescBy_perm {α : Type} (key : α → Nat) (l : List α) :
    (sortDescBy key l).Perm l := by
  induction l with
  | nil => rfl
  | cons y ys ih =>
    exact (insertDescBy_perm key y (sortDescBy key ys)).trans (ih.cons y)

/-- Descending insertion preserves descending sortedness. -/
theorem insertDescBy_sorted {α : Type} (key : α → Nat) (x : α) (l : List α)
    (h : l.Sorted (fun a b => key b ≤ key a)) :
    (insertDescBy key x l).Sorted (fun a b => key b ≤ key a) := by
  induction l with
  | nil => simp [insertDescBy]
  | cons y ys ih =>
    rw [List.sorted_cons] at h
    rw [insertDescBy]
    split_ifs with hxy
    · rw [List.sorted_cons]
      refine ⟨?_, List.sorted_cons.mpr h⟩
      intro b hb
      rcases List.mem_cons.mp hb with rfl | hb'
      · exact hxy
      · exact le_trans (h.1 b hb') hxy
    · rw [List.sorted_cons]
      refine ⟨?_, ih h.2⟩
      intro b hb
      rcases List.mem_cons.mp ((insertDescBy_perm key x ys).mem_iff.mp hb) with rfl | hb'
      · omega
      · exact h.1 b hb'

/-- Descending sort sorts descendingly. -/
theorem sortDescBy_sorted {α : Type} (key : α → Nat) (l : List α) :
    (sortDescBy key l).Sorted (fun a b => key b ≤ key a) := by
  induction l with
  | nil => exact List.sorted_nil
  | cons y ys ih => exact insertDescBy_sorted key y _ ih

/-- itertools.combinations(nums, 2): all ordered-position pairs of a list,
in lexicographic position order. -/
def pairsOf : List Nat → List (Nat × Nat)
  | [] => []
  | x :: xs => xs.map (fun y => (x, y)) ++ pairsOf xs

/-- Counter increment pair_counts[pair] += 1 on a counter modelled as an
association list in first-insertion order, as Python dicts preserve. -/
def bumpPairC : List ((Nat × Nat) × Nat) → (Nat × Nat) → List ((Nat × Nat) × Nat)
  | [], p => [(p, 1)]
  | (q, c) :: rest, p =>
      if q = p then (q, c + 1) :: rest else (q, c) :: bumpPairC rest p

/-- LottoRecommender._get_pair_weights: co-occurrence counts of all pairs of
the sorted numbers of each record, accumulated in record order. -/
def get_pair_weights (data : List DrawRec) : List ((Nat × Nat) × Nat) :=
  data.foldl (fun acc d => (pairsOf (sortNums d.numbers)).foldl bumpPairC acc) []

/-- Counter.most_common(100): the 100 highest-count entries, counts
descending, ties in first-insertion order (nlargest is documented equivalent
to a stable descending sort followed by take). -/
def most_common_100 (pw : List ((Nat × Nat) × Nat)) : List ((Nat × Nat) × Nat) :=
  (sortDescBy (fun e => e.2) pw).take 100

/-- self.recent_data: the most recent 30 records, or everything when fewer
than 30 exist. -/
def recent_data (records : List DrawRec) : List DrawRec :=
  if 30 ≤ records.length then records.drop (records.length - 30) else records

/-- LottoRecommender._get_cold_numbers: numbers of 1..45 absent from the
last num_rounds records.  Python builds a set difference whose iteration
order is unspecified; only membership is ever consumed (by the weight map),
so the cold set is modelled as a filtered list. -/
def cold_numbers (records : List DrawRec) (num_rounds : Nat) : List Nat :=
  numbers45.filter (fun n =>
    decide (¬ n ∈ ((records.drop (records.length - num_rounds)).map
      DrawRec.numbers).flatten))

/-- Weights of strategy 1, {n: 1 + hot_counts.get(n, 0)} over keys 1..45. -/
def weights_hot (records : List DrawRec) : List Nat :=
  numbers45.map (fun n => 1 + get_hot_numbers (recent_data records) n)

/-- Weights of strategy 2, {n: 10 if n in cold_nums else 1} over 1..45. -/
def weights_cold (records : List DrawRec) : List Nat :=
  numbers45.map (fun n => if n ∈ cold_numbers records 15 then 10 else 1)

/-- Weights of strategy 3, {n: total_counts.get(n, 0)} over 1..45. -/
def weights_total (records : List DrawRec) : List Nat :=
  numbers45.map (get_hot_numbers records)

/-- LottoRecommender._generate_pair_based_set: seed the candidate with a
random top-100 pair, then fill with global-frequency weighted draws.  One
oracle value is consumed by random.choice over the top pairs. -/
def generate_pair_based_set (all_data : List DrawRec) (rho : Nat → Nat)
    (k fuel : Nat) : Except String (Option (List Nat × Nat)) :=
  if (most_common_100 (get_pair_weights all_data)).length = 0 then
    generate_weighted_set numbers45 (numbers45.map (fun _ => 1)) rho k fuel
  else
    fillLoop numbers45 (numbers45.map (get_hot_numbers all_data)) rho fuel (k + 1)
      (dedupCons
        ((most_common_100 (get_pair_weights all_data)).getD
          (rho k % (most_common_100 (get_pair_weights all_data)).length)
          ((0, 0), 0)).1.2
        (dedupCons
          ((most_common_100 (get_pair_weights all_data)).getD
            (rho k % (most_common_100 (get_pair_weights all_data)).length)
            ((0, 0), 0)).1.1 []))

/-- One strategy's while count < 5 rejection loop: draw a candidate with gen
(threading the oracle position), keep it when it passes the filters, stop
after 5 accepted candidates.  There is no bound on rejections in the code,
so the model spends one fuel unit per iteration. -/
def rejection_loop (label : String)
    (gen : Nat → Except String (Option (List Nat × Nat))) :
    Nat → Nat → Nat → List (String × List Nat) →
      Except String (Option (List (String × List Nat) × Nat))
  | 0, _, _, _ => Except.ok none
  | fuel + 1, count, k, acc =>
    if 5 ≤ count then Except.ok (some (acc, k))
    else
      match gen k with
      | Except.error e => Except.error e
      | Except.ok none => Except.ok none
      | Except.ok (some (nums, k2)) =>
        if check_filters nums then
          rejection_loop label gen fuel (count + 1) k2 (acc ++ [(label, nums)])
        else
          rejection_loop label gen fuel count k2 acc

/-- Sequencing of strategy runs inside recommend: an error propagates, fuel
exhaustion propagates, and a completed batch is passed on with the next
oracle position. -/
def andThenStrategy
    (x : Except String (Option (List (String × List Nat) × Nat)))
    (f : List (String × List Nat) → Nat →
      Except String (Option (List (String × List Nat)))) :
    Except String (Option (List (String × List Nat))) :=
  match x with
  | Except.error e => Except.error e
  | Except.ok none => Except.ok none
  | Except.ok (some (out, k)) => f out k

/-- LottoRecommender.recommend: run the four strategies in order, each
collecting 5 filter-passing candidate sets, and return the concatenated
list of (strategy label, numbers) pairs. -/
def recommend (records : List DrawRec) (rho : Nat → Nat)
    (innerFuel outerFuel : Nat) :
    Except String (Option (List (String × List Nat))) :=
  andThenStrategy
    (rejection_loop "최근 트렌드(Hot)"
      (fun k => generate_weighted_set numbers45 (weights_hot records) rho k innerFuel)
      outerFuel 0 0 [])
    (fun rec1 k1 =>
      andThenStrategy
        (rejection_loop "미출현 번호(Cold)"
          (fun k => generate_weighted_set numbers45 (weights_cold records) rho k innerFuel)
          outerFuel 0 k1 [])
        (fun rec2 k2 =>
          andThenStrategy
            (rejection_loop "전체 통계 균형"
              (fun k => generate_weighted_set numbers45 (weights_total records) rho k innerFuel)
              outerFuel 0 k2 [])
            (fun rec3 k3 =>
              andThenStrategy
                (rejection_loop "동반 출현(Pair)"
                  (fun k => generate_pair_based_set records rho k innerFuel)
                  outerFuel 0 k3 [])
                (fun rec4 _ =>
                  Except.ok (some (rec1 ++ rec2 ++ rec3 ++ rec4))))))

/-- The positive support is a sublist of the population. -/
theorem positiveSupport_subset (population probs : List Nat) :
    ∀ x ∈ positiveSupport population probs, x ∈ population := by
  intro x hx
  unfold positiveSupport at hx
  rw [List.mem_map] at hx
  obtain ⟨p, hp, rfl⟩ := hx
  rw [List.mem_filter] at hp
  exact (List.of_mem_zip hp.1).1

/-- Membership in the key list 1..45. -/
theorem mem_numbers45 (x : Nat) : x ∈ numbers45 ↔ 1 ≤ x ∧ x ≤ 45 := by
  unfold numbers45
  rw [List.mem_range'_1]
  omega

/-- Any successful run of the sampling loop returns a sorted, duplicate-free
list of exactly 6 numbers, each of which was already selected at entry or
carries positive weight. -/
theorem fillLoop_ok_valid (population probs : List Nat) (rho : Nat → Nat) :
    ∀ (fuel k : Nat) (sel out : List Nat) (k2 : Nat),
      fillLoop population probs rho fuel k sel = Except.ok (some (out, k2)) →
      sel.Nodup → sel.length ≤ 6 →
      out.length = 6 ∧ out.Nodup ∧ out.Sorted (· ≤ ·) ∧
        (∀ x ∈ out, x ∈ sel ∨ x ∈ positiveSupport population probs) := by
  intro fuel
  induction fuel with
  | zero =>
    intro k sel out k2 h _ _
    simp [fillLoop] at h
  | succ n ih =>
    intro k sel out k2 h hnd hlen
    rw [fillLoop] at h
    by_cases hfull : 6 ≤ sel.length
    · rw [if_pos hfull] at h
      injection h with h1
      injection h1 with h2
      cases h2
      refine ⟨?_, ?_, sortNums_sorted sel, ?_⟩
      · rw [sortNums_length]
        omega
      · exact (sortNums_perm sel).nodup_iff.mpr hnd
      · intro x hx
        exact Or.inl ((sortNums_perm sel).subset hx)
    · rw [if_neg hfull] at h
      cases hp : random_choices_pick population probs (rho k) with
      | error e =>
        rw [hp] at h
        cases h
      | ok pick =>
        rw [hp] at h
        have hrec := ih (k + 1) (dedupCons pick sel) out k2 h
          (dedupCons_nodup _ _ hnd)
          (by have := dedupCons_length_le pick sel; omega)
        refine ⟨hrec.1, hrec.2.1, hrec.2.2.1, ?_⟩
        intro x hx
        rcases hrec.2.2.2 x hx with hx' | hx'
        · rcases (mem_dedupCons x pick sel).mp hx' with rfl | hx''
          · exact Or.inr (random_choices_pick_mem _ _ _ _ hp)
          · exact Or.inl hx''
        · exact Or.inr hx'

/-- A successful weighted draw over the key list 1..45 yields 6 distinct
numbers in [1,45]. -/
theorem generate_weighted_set_ok_valid (probs : List Nat) (rho : Nat → Nat)
    (k fuel : Nat) (out : List Nat) (k2 : Nat)
    (h : generate_weighted_set numbers45 probs rho k fuel =
      Except.ok (some (out, k2))) :
    out.length = 6 ∧ out.Nodup ∧ ∀ x ∈ out, 1 ≤ x ∧ x ≤ 45 := by
  have hv := fillLoop_ok_valid numbers45 probs rho fuel k [] out k2 h
    List.nodup_nil (by simp)
  refine ⟨hv.1, hv.2.1, ?_⟩
  intro x hx
  rcases hv.2.2.2 x hx with hx' | hx'
  · cases hx'
  · exact (mem_numbers45 x).mp (positiveSupport_subset _ _ x hx')

/-- Both components of a combinations pair come from the list. -/
theorem pairsOf_mem (l : List Nat) (p : Nat × Nat) (hp : p ∈ pairsOf l) :
    p.1 ∈ l ∧ p.2 ∈ l := by
  induction l with
  | nil => cases hp
  | cons x xs ih =>
    rw [pairsOf, List.mem_append] at hp
    rcases hp with hp' | hp'
    · rw [List.mem_map] at hp'
      obtain ⟨y, hy, rfl⟩ := hp'
      exact ⟨List.mem_cons_self x xs, List.mem_cons_of_mem x hy⟩
    · obtain ⟨h1, h2⟩ := ih hp'
      exact ⟨List.mem_cons_of_mem x h1, List.mem_cons_of_mem x h2⟩

/-- A counter increment only introduces the incremented key. -/
theorem bumpPairC_keys (P : Nat × Nat → Prop) :
    ∀ (l : List ((Nat × Nat) × Nat)) (p : Nat × Nat),
      (∀ e ∈ l, P e.1) → P p → ∀ e ∈ bumpPairC l p, P e.1 := by
  intro l
  induction l with
  | nil =>
    intro p _ hp e he
    rw [bumpPairC] at he
    rcases List.mem_singleton.mp he with rfl
    exact hp
  | cons qc rest ih =>
    intro p hl hp e he
    obtain ⟨q, c⟩ := qc
    rw [bumpPairC] at he
    split_ifs at he with hq
    · rcases List.mem_cons.mp he with rfl | he'
      · exact hl (q, c) (List.mem_cons_self _ _)
      · exact hl e (List.mem_cons_of_mem _ he')
    · rcases List.mem_cons.mp he with rfl | he'
      · exact hl (q, c) (List.mem_cons_self _ _)
      · exact ih p (fun e' he'' => hl e' (List.mem_cons_of_mem _ he'')) hp e he'

/-- Folding counter increments over a pair list only introduces those keys. -/
theorem foldl_bumpPairC_keys (P : Nat × Nat → Prop) (pairs : List (Nat × Nat)) :
    ∀ (acc : List ((Nat × Nat) × Nat)),
      (∀ e ∈ acc, P e.1) → (∀ p ∈ pairs, P p) →
      ∀ e ∈ pairs.foldl bumpPairC acc, P e.1 := by
  induction pairs with
  | nil =>
    intro acc hacc _ e he
    exact hacc e he
  | cons p ps ih =>
    intro acc hacc hps e he
    rw [List.foldl_cons] at he
    exact ih (bumpPairC acc p)
      (bumpPairC_keys P acc p hacc (hps p (List.mem_cons_self _ _)))
      (fun q hq => hps q (List.mem_cons_of_mem _ hq)) e he

/-- Every key of the pair-weight counter is a pair of numbers of some
record; in particular both members lie in [1,45] for valid records. -/
theorem get_pair_weights_keys (records : List DrawRec)
    (hr : ∀ r ∈ records, ∀ n ∈ r.numbers, 1 ≤ n ∧ n ≤ 45) :
    ∀ e ∈ get_pair_weights records,
      (1 ≤ e.1.1 ∧ e.1.1 ≤ 45) ∧ (1 ≤ e.1.2 ∧ e.1.2 ≤ 45) := by
  unfold get_pair_weights
  suffices hgen : ∀ (rs : List DrawRec),
      (∀ r ∈ rs, ∀ n ∈ r.numbers, 1 ≤ n ∧ n ≤ 45) →
      ∀ (acc : List ((Nat × Nat) × Nat)),
      (∀ e ∈ acc, (1 ≤ e.1.1 ∧ e.1.1 ≤ 45) ∧ (1 ≤ e.1.2 ∧ e.1.2 ≤ 45)) →
      ∀ e ∈ rs.foldl (fun acc d => (pairsOf (sortNums d.numbers)).foldl bumpPairC acc) acc,
        (1 ≤ e.1.1 ∧ e.1.1 ≤ 45) ∧ (1 ≤ e.1.2 ∧ e.1.2 ≤ 45) by
    exact hgen records hr [] (fun e he => absurd he (List.not_mem_nil e))
  intro rs
  induction rs with
  | nil =>
    intro _ acc hacc e he
    exact hacc e he
  | cons r rest ih =>
    intro hrs acc hacc e he
    rw [List.foldl_cons] at he
    refine ih (fun r' hr' n hn => hrs r' (List.mem_cons_of_mem _ hr') n hn) _ ?_ e he
    intro e' he'
    refine foldl_bumpPairC_keys
      (fun p => (1 ≤ p.1 ∧ p.1 ≤ 45) ∧ (1 ≤ p.2 ∧ p.2 ≤ 45))
      (pairsOf (sortNums r.numbers)) acc hacc ?_ e' he'
    intro p hp
    have hmem := pairsOf_mem _ p hp
    have h1 := (sortNums_perm r.numbers).subset hmem.1
    have h2 := (sortNums_perm r.numbers).subset hmem.2
    exact ⟨hrs r (List.mem_cons_self _ _) p.1 h1, hrs r (List.mem_cons_self _ _) p.2 h2⟩

/-- The top-100 list is a sub-collection of the counter entries. -/
theorem most_common_100_mem (pw : List ((Nat × Nat) × Nat)) :
    ∀ e ∈ most_common_100 pw, e ∈ pw := by
  intro e he
  unfold most_common_100 at he
  exact (sortDescBy_perm _ pw).subset (List.take_subset _ _ he)

/-- A successful pair-based draw also yields 6 distinct numbers in [1,45],
provided the records feeding the pair counter hold valid numbers. -/
theorem generate_pair_based_set_ok_valid (records : List DrawRec)
    (hr : ∀ r ∈ records, ∀ n ∈ r.numbers, 1 ≤ n ∧ n ≤ 45)
    (rho : Nat → Nat) (k fuel : Nat) (out : List Nat) (k2 : Nat)
    (h : generate_pair_based_set records rho k fuel = Except.ok (some (out, k2))) :
    out.length = 6 ∧ out.Nodup ∧ ∀ x ∈ out, 1 ≤ x ∧ x ≤ 45 := by
  unfold generate_pair_based_set at h
  by_cases htop : (most_common_100 (get_pair_weights records)).length = 0
  · rw [if_pos htop] at h
    exact generate_weighted_set_ok_valid _ rho k fuel out k2 h
  · rw [if_neg htop] at h
    have hpos : 0 < (most_common_100 (get_pair_weights records)).length :=
      Nat.pos_of_ne_zero htop
    have hidx : rho k % (most_common_100 (get_pair_weights records)).length <
        (most_common_100 (get_pair_weights records)).length := Nat.mod_lt _ hpos
    have hmem : (most_common_100 (get_pair_weights records)).getD
        (rho k % (most_common_100 (get_pair_weights records)).length)
        ((0, 0), 0) ∈ most_common_100 (get_pair_weights records) := by
      rw [List.getD_eq_getElem _ _ hidx]
      exact (most_common_100 (get_pair_weights records)).getElem_mem hidx
    have hkey := get_pair_weights_keys records hr _ (most_common_100_mem _ _ hmem)
    have hselnd : (dedupCons
        ((most_common_100 (get_pair_weights records)).getD
          (rho k % (most_common_100 (get_pair_weights records)).length)
          ((0, 0), 0)).1.2
        (dedupCons
          ((most_common_100 (get_pair_weights records)).getD
            (rho k % (most_common_100 (get_pair_weights records)).length)
            ((0, 0), 0)).1.1 [])).Nodup :=
      dedupCons_nodup _ _ (dedupCons_nodup _ _ List.nodup_nil)
    have hsellen : (dedupCons
        ((most_common_100 (get_pair_weights records)).getD
          (rho k % (most_common_100 (get_pair_weights records)).length)
          ((0, 0), 0)).1.2
        (dedupCons
          ((most_common_100 (get_pair_weights records)).getD
            (rho k % (most_common_100 (get_pair_weights records)).length)
            ((0, 0), 0)).1.1 [])).length ≤ 6 := by
      have h1 := dedupCons_length_le
        ((most_common_100 (get_pair_weights records)).getD
          (rho k % (most_common_100 (get_pair_weights records)).length)
          ((0, 0), 0)).1.1 ([] : List Nat)
      have h2 := dedupCons_length_le
        ((most_common_100 (get_pair_weights records)).getD
          (rho k % (most_common_100 (get_pair_weights records)).length)
          ((0, 0), 0)).1.2
        (dedupCons
          ((most_common_100 (get_pair_weights records)).getD
            (rho k % (most_common_100 (get_pair_weights records)).length)
            ((0, 0), 0)).1.1 [])
      simp only [List.length_nil] at h1
      omega
    have hv := fillLoop_ok_valid numbers45 _ rho fuel (k + 1) _ out k2 h hselnd hsellen
    refine ⟨hv.1, hv.2.1, ?_⟩
    intro x hx
    rcases hv.2.2.2 x hx with hx' | hx'
    · rcases (mem_dedupCons x _ _).mp hx' with rfl | hx''
      · exact hkey.2
      · rcases (mem_dedupCons x _ []).mp hx'' with rfl | hx'''
        · exact hkey.1
        · cases hx'''
    · exact (mem_numbers45 x).mp (positiveSupport_subset _ _ x hx')

/-- Every element of a completed rejection batch was already in the
accumulator, or carries the strategy label, passes the filters and was
produced by the strategy's generator. -/
theorem rejection_loop_mem (label : String)
    (gen : Nat → Except String (Option (List Nat × Nat))) :
    ∀ (fuel count k : Nat) (acc out : List (String × List Nat)) (k2 : Nat),
      rejection_loop label gen fuel count k acc = Except.ok (some (out, k2)) →
      ∀ p ∈ out, p ∈ acc ∨ (p.1 = label ∧ check_filters p.2 = true ∧
        ∃ ka kb, gen ka = Except.ok (some (p.2, kb))) := by
  intro fuel
  induction fuel with
  | zero =>
    intro count k acc out k2 h
    simp [rejection_loop] at h
  | succ n ih =>
    intro count k acc out k2 h p hp
    rw [rejection_loop] at h
    by_cases hc : 5 ≤ count
    · rw [if_pos hc] at h
      injection h with h1
      injection h1 with h2
      cases h2
      exact Or.inl hp
    · rw [if_neg hc] at h
      split at h
      · cases h
      · injection h with h1
        cases h1
      · rename_i nums kb heq
        by_cases hf : check_filters nums = true
        · rw [if_pos hf] at h
          have hrec := ih (count + 1) kb (acc ++ [(label, nums)]) out k2 h p hp
          rcases hrec with hin | hnew
          · rcases List.mem_append.mp hin with hin1 | hin2
            · exact Or.inl hin1
            · cases List.mem_singleton.mp hin2
              exact Or.inr ⟨rfl, hf, k, kb, heq⟩
          · exact Or.inr hnew
        · rw [if_neg hf] at h
          exact ih count kb acc out k2 h p hp

/-- Inversion of the strategy sequencing: a run that completes passes
through a completed batch of each stage. -/
theorem andThenStrategy_inv
    (x : Except String (Option (List (String × List Nat) × Nat)))
    (f : List (String × List Nat) → Nat →
      Except String (Option (List (String × List Nat))))
    (out : List (String × List Nat))
    (h : andThenStrategy x f = Except.ok (some out)) :
    ∃ r k, x = Except.ok (some (r, k)) ∧ f r k = Except.ok (some out) := by
  cases x with
  | error e => cases h
  | ok o =>
    cases o with
    | none =>
      injection h with h1
      cases h1
    | some rk =>
      obtain ⟨r, k⟩ := rk
      exact ⟨r, k, rfl, h⟩

/-- Every pair of a terminating recommend run passes the filters and stems
from a successful weighted draw over keys 1..45 or from a successful
pair-based draw. -/
theorem recommend_elems (records : List DrawRec) (rho : Nat → Nat)
    (innerFuel outerFuel : Nat) (out : List (String × List Nat))
    (h : recommend records rho innerFuel outerFuel = Except.ok (some out)) :
    ∀ p ∈ out, check_filters p.2 = true ∧
      ((∃ probs ka kb, generate_weighted_set numbers45 probs rho ka innerFuel =
          Except.ok (some (p.2, kb))) ∨
       (∃ ka kb, generate_pair_based_set records rho ka innerFuel =
          Except.ok (some (p.2, kb)))) := by
  unfold recommend at h
  obtain ⟨r1, k1, h1, h⟩ := andThenStrategy_inv _ _ _ h
  obtain ⟨r2, k2, h2, h⟩ := andThenStrategy_inv _ _ _ h
  obtain ⟨r3, k3, h3, h⟩ := andThenStrategy_inv _ _ _ h
  obtain ⟨r4, k4, h4, h⟩ := andThenStrategy_inv _ _ _ h
  injection h with h5
  injection h5 with h6
  cases h6
  intro p hp
  rcases List.mem_append.mp hp with hp123 | hp4
  · rcases List.mem_append.mp hp123 with hp12 | hp3
    · rcases List.mem_append.mp hp12 with hp1 | hp2
      · rcases rejection_loop_mem _ _ outerFuel 0 0 [] r1 k1 h1 p hp1 with hnil | hgen
        · cases hnil
        · exact ⟨hgen.2.1, Or.inl ⟨weights_hot records, hgen.2.2⟩⟩
      · rcases rejection_loop_mem _ _ outerFuel 0 k1 [] r2 k2 h2 p hp2 with hnil | hgen
        · cases hnil
        · exact ⟨hgen.2.1, Or.inl ⟨weights_cold records, hgen.2.2⟩⟩
    · rcases rejection_loop_mem _ _ outerFuel 0 k2 [] r3 k3 h3 p hp3 with hnil | hgen
      · cases hnil
      · exact ⟨hgen.2.1, Or.inl ⟨weights_total records, hgen.2.2⟩⟩
  · rcases rejection_loop_mem _ _ outerFuel 0 k3 [] r4 k4 h4 p hp4 with hnil | hgen
    · cases hnil
    · exact ⟨hgen.2.1, Or.inr hgen.2.2⟩

/-- C1: every (strategyLabel, CandidateSet) pair returned by a terminating
recommend run over a collection of valid draw records (all numbers within
[1,45]) has a candidate set that passes check_filters and consists of
exactly 6 distinct integers in [1,45], for every draw-oracle stream and
every pair of fuel bounds. -/
theorem recommend_returns_valid_filtered_sets (records : List DrawRec)
    (rho : Nat → Nat) (innerFuel outerFuel : Nat)
    (out : List (String × List Nat))
    (hr : ∀ r ∈ records, ∀ n ∈ r.numbers, 1 ≤ n ∧ n ≤ 45)
    (h : recommend records rho innerFuel outerFuel = Except.ok (some out)) :
    ∀ p ∈ out, check_filters p.2 = true ∧ p.2.length = 6 ∧ p.2.Nodup ∧
      ∀ n ∈ p.2, 1 ≤ n ∧ n ≤ 45 := by
  intro p hp
  have he := recommend_elems records rho innerFuel outerFuel out h p hp
  refine ⟨he.1, ?_⟩
  rcases he.2 with ⟨probs, ka, kb, hgen⟩ | ⟨ka, kb, hgen⟩
  · exact generate_weighted_set_ok_valid probs rho ka innerFuel p.2 kb hgen
  · exact generate_pair_based_set_ok_valid records hr rho ka innerFuel p.2 kb hgen

/-- C4 (amended): in each strategy's rejection loop a drawn candidate set is
appended to the accepted batch exactly when it passes the Filter Engine;
presence in the batch is never consulted, so all members of a terminating
run's output pass check_filters while duplicate candidate sets are possible
(see the counterexample). -/
theorem rejection_keeps_iff_passes_filters (records : List DrawRec)
    (rho : Nat → Nat) (innerFuel outerFuel : Nat)
    (out : List (String × List Nat))
    (h : recommend records rho innerFuel outerFuel = Except.ok (some out)) :
    ∀ p ∈ out, check_filters p.2 = true :=
  fun p hp => (recommend_elems records rho innerFuel outerFuel out h p hp).1

deriving instance DecidableEq for Except

/-- A single valid draw record used for the concrete recommend runs. -/
def valRecords : List DrawRec := [⟨1, [2, 5, 11, 19, 33, 40], 7⟩]

/-- Draw-oracle values for one full recommend run over valRecords: each
strategy repeatedly draws the indices of 2, 5, 11, 19, 33, 40 in its
positive-weight population (all of 1..45 for the hot and cold strategies,
the six historical numbers for the global and pair strategies; the pair
strategy first picks top pair (2,5) and fills the rest). -/
def valTable : List Nat :=
  (List.replicate 10 [1, 4, 10, 18, 32, 39]).flatten ++
  (List.replicate 5 [0, 1, 2, 3, 4, 5]).flatten ++
  (List.replicate 5 [0, 2, 3, 4, 5]).flatten

/-- The oracle stream of the concrete run. -/
def valRho (k : Nat) : Nat := valTable.getD k 0

/-- The output of the concrete run: each strategy accepts the same set
{2,5,11,19,33,40} five times. -/
def valOut : List (String × List Nat) :=
  List.replicate 5 ("최근 트렌드(Hot)", [2, 5, 11, 19, 33, 40]) ++
  List.replicate 5 ("미출현 번호(Cold)", [2, 5, 11, 19, 33, 40]) ++
  List.replicate 5 ("전체 통계 균형", [2, 5, 11, 19, 33, 40]) ++
  List.replicate 5 ("동반 출현(Pair)", [2, 5, 11, 19, 33, 40])

/-- The concrete run terminates with output valOut. -/
theorem valRun_eq : recommend valRecords valRho 8 8 = Except.ok (some valOut) := by
  decide

/-- Concrete witness for C1: the concrete run over a valid record. -/
theorem recommend_returns_valid_filtered_sets_witness :
    ((∀ r ∈ valRecords, ∀ n ∈ DrawRec.numbers r, 1 ≤ n ∧ n ≤ 45) ∧
      recommend valRecords valRho 8 8 = Except.ok (some valOut)) ∧
    (∀ p ∈ valOut, check_filters p.2 = true ∧ p.2.length = 6 ∧ p.2.Nodup ∧
      ∀ n ∈ p.2, 1 ≤ n ∧ n ≤ 45) :=
  ⟨⟨by decide, valRun_eq⟩,
    recommend_returns_valid_filtered_sets valRecords valRho 8 8 valOut
      (by decide) valRun_eq⟩

/-- C4 counterexample: a concrete terminating recommend run whose accepted
batch contains the same (strategy, candidate set) pair repeatedly — already
its first two entries coincide — because the code appends every
filter-passing draw without consulting the batch. -/
theorem rejection_loop_duplicates_counterexample :
    recommend valRecords valRho 8 8 = Except.ok (some valOut) ∧
    valOut.getD 0 ("", []) = valOut.getD 1 ("", []) ∧
    ¬ valOut.Nodup :=
  ⟨valRun_eq, by decide, by decide⟩

/-- Concrete witness for the amended C4 at the concrete run. -/
theorem rejection_keeps_iff_passes_filters_witness :
    (recommend valRecords valRho 8 8 = Except.ok (some valOut)) ∧
    (∀ p ∈ valOut, check_filters p.2 = true) :=
  ⟨valRun_eq,
    rejection_keeps_iff_passes_filters valRecords valRho 8 8 valOut valRun_eq⟩

/-- One entry of the frequency table of crawler.update_frequency_data. -/
structure FreqEntry where
  main : Nat
  bonus : Nat
  total : Nat
deriving DecidableEq

/-- The increment of main and total for one drawn number, guarded by the
range check if 1 <= num <= 45 of update_frequency_data; the table only has
keys 1..45, so out-of-range updates are dropped. -/
def bumpMain (f : Nat → FreqEntry) (num : Nat) : Nat → FreqEntry :=
  if 1 ≤ num ∧ num ≤ 45 then
    fun m => if m = num then
      { f num with main := (f num).main + 1, total := (f num).total + 1 }
    else f m
  else f

/-- The increment of bonus and total for the bonus number, same guard. -/
def bumpBonus (f : Nat → FreqEntry) (b : Nat) : Nat → FreqEntry :=
  if 1 ≤ b ∧ b ≤ 45 then
    fun m => if m = b then
      { f b with bonus := (f b).bonus + 1, total := (f b).total + 1 }
    else f m
  else f

/-- Processing one record file: bump main and total for each drawn number,
then bump bonus and total for the bonus number. -/
def applyRecordFreq (f : Nat → FreqEntry) (r : DrawRec) : Nat → FreqEntry :=
  bumpBonus (r.numbers.foldl bumpMain f) r.bonus

/-- The stats table of crawler.update_frequency_data over a record
collection, starting from all-zero entries for keys 1..45. -/
def update_frequency_stats (records : List DrawRec) : Nat → FreqEntry :=
  records.foldl applyRecordFreq (fun _ => ⟨0, 0, 0⟩)

/-- The ranking of update_frequency_data: the key/entry pairs in key order
1..45, stably sorted by total descending (Python sorted with reverse=True). -/
def update_frequency_ranking (records : List DrawRec) : List (Nat × FreqEntry) :=
  sortDescBy (fun p => p.2.total)
    (numbers45.map (fun n => (n, update_frequency_stats records n)))

/-- Folding main-increments over a number list adds the occurrence count of
an in-range key to main and total and leaves bonus untouched. -/
theorem foldl_bumpMain_spec (n : Nat) (h1 : 1 ≤ n) (h2 : n ≤ 45) :
    ∀ (ns : List Nat) (f : Nat → FreqEntry),
      ((ns.foldl bumpMain f) n).main = (f n).main + ns.count n ∧
      ((ns.foldl bumpMain f) n).bonus = (f n).bonus ∧
      ((ns.foldl bumpMain f) n).total = (f n).total + ns.count n := by
  intro ns
  induction ns with
  | nil =>
    intro f
    simp
  | cons x xs ih =>
    intro f
    rw [List.foldl_cons]
    have hstep : ((bumpMain f x) n).main = (f n).main + (if n = x then 1 else 0) ∧
        ((bumpMain f x) n).bonus = (f n).bonus ∧
        ((bumpMain f x) n).total = (f n).total + (if n = x then 1 else 0) := by
      unfold bumpMain
      by_cases hx : n = x
      · subst hx
        rw [if_pos ⟨h1, h2⟩, if_pos rfl]
        simp
      · split_ifs with hr
        · simp only []
          rw [if_neg hx]
          simp
        · simp [hx]
    obtain ⟨ha, hb, hc⟩ := ih (bumpMain f x)
    refine ⟨?_, ?_, ?_⟩
    · rw [ha, hstep.1, List.count_cons]
      by_cases hnx : n = x <;> simp [hnx] <;> omega
    · rw [hb, hstep.2.1]
    · rw [hc, hstep.2.2, List.count_cons]
      by_cases hnx : n = x <;> simp [hnx] <;> omega

/-- The bonus increment at an in-range key. -/
theorem bumpBonus_spec (n : Nat) (h1 : 1 ≤ n) (h2 : n ≤ 45)
    (f : Nat → FreqEntry) (b : Nat) :
    ((bumpBonus f b) n).main = (f n).main ∧
    ((bumpBonus f b) n).bonus = (f n).bonus + (if b = n then 1 else 0) ∧
    ((bumpBonus f b) n).total = (f n).total + (if b = n then 1 else 0) := by
  unfold bumpBonus
  by_cases hb : b = n
  · subst hb
    rw [if_pos ⟨h1, h2⟩, if_pos rfl]
    simp
  · split_ifs with hr
    · simp only []
      rw [if_neg (fun hc => hb hc.symm)]
      simp [hb]
    · simp [hb]

/-- Folding records through the frequency update accumulates, at an
in-range key, the occurrence count of the key among all main numbers into
main and the count among bonus numbers into bonus. -/
theorem foldl_applyRecordFreq_spec (n : Nat) (h1 : 1 ≤ n) (h2 : n ≤ 45) :
    ∀ (rs : List DrawRec) (f : Nat → FreqEntry),
      ((rs.foldl applyRecordFreq f) n).main =
        (f n).main + ((rs.map DrawRec.numbers).flatten).count n ∧
      ((rs.foldl applyRecordFreq f) n).bonus =
        (f n).bonus + (rs.map DrawRec.bonus).count n ∧
      ((rs.foldl applyRecordFreq f) n).total =
        (f n).total + ((rs.map DrawRec.numbers).flatten).count n +
          (rs.map DrawRec.bonus).count n := by
  intro rs
  induction rs with
  | nil =>
    intro f
    simp
  | cons r rest ih =>
    intro f
    rw [List.foldl_cons]
    obtain ⟨ha, hb, hc⟩ := ih (applyRecordFreq f r)
    have hm := foldl_bumpMain_spec n h1 h2 r.numbers f
    have hs := bumpBonus_spec n h1 h2 (r.numbers.foldl bumpMain f) r.bonus
    have hstep : ((applyRecordFreq f r) n).main = (f n).main + r.numbers.count n ∧
        ((applyRecordFreq f r) n).bonus = (f n).bonus + (if r.bonus = n then 1 else 0) ∧
        ((applyRecordFreq f r) n).total =
          (f n).total + r.numbers.count n + (if r.bonus = n then 1 else 0) := by
      unfold applyRecordFreq
      refine ⟨?_, ?_, ?_⟩
      · rw [hs.1, hm.1]
      · rw [hs.2.1, hm.2.1]
      · rw [hs.2.2, hm.2.2]
    refine ⟨?_, ?_, ?_⟩
    · rw [ha, hstep.1, List.map_cons, List.flatten_cons, List.count_append]
      omega
    · rw [hb, hstep.2.1, List.map_cons, List.count_cons]
      by_cases hbn : n = r.bonus <;> simp [hbn] <;> omega
    · rw [hc, hstep.2.2, List.map_cons, List.flatten_cons, List.count_append,
        List.map_cons, List.count_cons]
      by_cases hbn : n = r.bonus <;> simp [hbn] <;> omega

/-- C7: for every record collection and every key n in [1,45], the
frequency table holds main = number of occurrences of n among the six main
numbers of all records, bonus = number of records whose bonus is n,
total = main + bonus (numbers outside [1,45] are dropped by the range
guard), and the published ranking is sorted by total descending. -/
theorem frequency_table_counts_and_ranking (records : List DrawRec) (n : Nat)
    (h1 : 1 ≤ n) (h2 : n ≤ 45) :
    ((update_frequency_stats records n).main =
        ((records.map DrawRec.numbers).flatten).count n ∧
      (update_frequency_stats records n).bonus =
        (records.map DrawRec.bonus).count n ∧
      (update_frequency_stats records n).total =
        (update_frequency_stats records n).main +
          (update_frequency_stats records n).bonus) ∧
    (update_frequency_ranking records).Sorted (fun a b => b.2.total ≤ a.2.total) := by
  obtain ⟨ha, hb, hc⟩ := foldl_applyRecordFreq_spec n h1 h2 records (fun _ => ⟨0, 0, 0⟩)
  simp only [Nat.zero_add] at ha hb hc
  constructor
  · unfold update_frequency_stats
    exact ⟨ha, hb, by omega⟩
  · exact sortDescBy_sorted _ _

/-- Concrete witness for C7: number 7 appears as a main number in 3 records
and as the bonus in 1 record, giving entry {main 3, bonus 1, total 4}. -/
theorem frequency_table_counts_and_ranking_witness :
    ((1 ≤ 7 ∧ 7 ≤ 45) ∧
      update_frequency_stats
        [⟨1, [7, 1, 2, 9, 14, 20], 10⟩, ⟨2, [3, 7, 21, 22, 30, 31], 13⟩,
         ⟨3, [5, 6, 7, 40, 41, 44], 25⟩, ⟨4, [8, 10, 12, 18, 24, 26], 7⟩] 7 =
        ⟨3, 1, 4⟩) ∧
    ((update_frequency_stats
        [⟨1, [7, 1, 2, 9, 14, 20], 10⟩, ⟨2, [3, 7, 21, 22, 30, 31], 13⟩,
         ⟨3, [5, 6, 7, 40, 41, 44], 25⟩, ⟨4, [8, 10, 12, 18, 24, 26], 7⟩] 7).main =
        (([⟨1, [7, 1, 2, 9, 14, 20], 10⟩, ⟨2, [3, 7, 21, 22, 30, 31], 13⟩,
           ⟨3, [5, 6, 7, 40, 41, 44], 25⟩,
           (⟨4, [8, 10, 12, 18, 24, 26], 7⟩ : DrawRec)].map DrawRec.numbers).flatten).count 7 ∧
      (update_frequency_stats
        [⟨1, [7, 1, 2, 9, 14, 20], 10⟩, ⟨2, [3, 7, 21, 22, 30, 31], 13⟩,
         ⟨3, [5, 6, 7, 40, 41, 44], 25⟩, ⟨4, [8, 10, 12, 18, 24, 26], 7⟩] 7).bonus =
        ([⟨1, [7, 1, 2, 9, 14, 20], 10⟩, ⟨2, [3, 7, 21, 22, 30, 31], 13⟩,
          ⟨3, [5, 6, 7, 40, 41, 44], 25⟩,
          (⟨4, [8, 10, 12, 18, 24, 26], 7⟩ : DrawRec)].map DrawRec.bonus).count 7 ∧
      (update_frequency_stats
        [⟨1, [7, 1, 2, 9, 14, 20], 10⟩, ⟨2, [3, 7, 21, 22, 30, 31], 13⟩,
         ⟨3, [5, 6, 7, 40, 41, 44], 25⟩, ⟨4, [8, 10, 12, 18, 24, 26], 7⟩] 7).total =
        (update_frequency_stats
          [⟨1, [7, 1, 2, 9, 14, 20], 10⟩, ⟨2, [3, 7, 21, 22, 30, 31], 13⟩,
           ⟨3, [5, 6, 7, 40, 41, 44], 25⟩, ⟨4, [8, 10, 12, 18, 24, 26], 7⟩] 7).main +
        (update_frequency_stats
          [⟨1, [7, 1, 2, 9, 14, 20], 10⟩, ⟨2, [3, 7, 21, 22, 30, 31], 13⟩,
           ⟨3, [5, 6, 7, 40, 41, 44], 25⟩, ⟨4, [8, 10, 12, 18, 24, 26], 7⟩] 7).bonus) ∧
    (update_frequency_ranking
      [⟨1, [7, 1, 2, 9, 14, 20], 10⟩, ⟨2, [3, 7, 21, 22, 30, 31], 13⟩,
       ⟨3, [5, 6, 7, 40, 41, 44], 25⟩, ⟨4, [8, 10, 12, 18, 24, 26], 7⟩]).Sorted
      (fun a b => b.2.total ≤ a.2.total) :=
  ⟨⟨by decide, by decide⟩,
    (frequency_table_counts_and_ranking
      [⟨1, [7, 1, 2, 9, 14, 20], 10⟩, ⟨2, [3, 7, 21, 22, 30, 31], 13⟩,
       ⟨3, [5, 6, 7, 40, 41, 44], 25⟩, ⟨4, [8, 10, 12, 18, 24, 26], 7⟩] 7
      (by decide) (by decide)).1,
    (frequency_table_counts_and_ranking
      [⟨1, [7, 1, 2, 9, 14, 20], 10⟩, ⟨2, [3, 7, 21, 22, 30, 31], 13⟩,
       ⟨3, [5, 6, 7, 40, 41, 44], 25⟩, ⟨4, [8, 10, 12, 18, 24, 26], 7⟩] 7
      (by decide) (by decide)).2⟩

/-- The carryover overlap sizes of LottoAnalyzer.advanced_pattern_analysis:
for i in range(1, len(data)), the size of the intersection of the number
sets of record i-1 and record i, taken by array position.  The loop pairs
each record with its successor, i.e. zips the list with its tail. -/
def carryover_overlaps (data : List DrawRec) : List Nat :=
  (data.zip data.tail).map
    (fun p => ((p.1.numbers.toFinset) ∩ (p.2.numbers.toFinset)).card)

/-- The carryover Counter viewed as a tally function from overlap size to
occurrence count. -/
def carryover_counts (data : List DrawRec) (c : Nat) : Nat :=
  (carryover_overlaps data).count c

/-- Tallying a list of values below a bound and summing the tallies gives
back the number of values. -/
theorem count_sum_range (l : List Nat) (m : Nat) (hl : ∀ x ∈ l, x < m) :
    (Finset.range m).sum (fun k => l.count k) = l.length := by
  induction l with
  | nil => simp
  | cons x xs ih =>
    have hx : x < m := hl x (List.mem_cons_self _ _)
    have hxs : ∀ y ∈ xs, y < m := fun y hy => hl y (List.mem_cons_of_mem _ hy)
    calc (Finset.range m).sum (fun k => (x :: xs).count k)
        = (Finset.range m).sum (fun k => xs.count k + if k = x then 1 else 0) := by
          refine Finset.sum_congr rfl ?_
          intro k _
          rw [List.count_cons]
          by_cases hkx : k = x <;> simp [hkx] <;> omega
      _ = (Finset.range m).sum (fun k => xs.count k) +
          (Finset.range m).sum (fun k => if k = x then 1 else 0) :=
          Finset.sum_add_distrib
      _ = xs.length + 1 := by
          rw [ih hxs, Finset.sum_ite_eq' (Finset.range m) x (fun _ => 1),
            if_pos (Finset.mem_range.mpr hx)]
      _ = (x :: xs).length := by rw [List.length_cons]

/-- C8: for a non-empty record sequence of six-number records, the
carryover distribution is tallied over adjacent records by array position
and its occurrence counts over the possible overlaps 0..6 sum to exactly
(number of records - 1). -/
theorem carryover_counts_sum (data : List DrawRec) (hne : data ≠ [])
    (h6 : ∀ r ∈ data, r.numbers.length = 6) :
    (Finset.range 7).sum (fun c => carryover_counts data c) =
      data.length - 1 := by
  have hlt : ∀ x ∈ carryover_overlaps data, x < 7 := by
    intro x hx
    unfold carryover_overlaps at hx
    rw [List.mem_map] at hx
    obtain ⟨p, hp, rfl⟩ := hx
    have hmem := List.of_mem_zip hp
    have hcard : p.1.numbers.toFinset.card ≤ 6 := by
      have hle := List.toFinset_card_le p.1.numbers
      rw [h6 p.1 hmem.1] at hle
      exact hle
    have hint : (p.1.numbers.toFinset ∩ p.2.numbers.toFinset).card ≤
        p.1.numbers.toFinset.card :=
      Finset.card_le_card Finset.inter_subset_left
    omega
  have hlen : (carryover_overlaps data).length = data.length - 1 := by
    unfold carryover_overlaps
    rw [List.length_map, List.length_zip, List.length_tail]
    omega
  unfold carryover_counts
  rw [count_sum_range _ 7 hlt, hlen]

/-- Concrete witness for C8 at three records with overlaps 3 and 0. -/
theorem carryover_counts_sum_witness :
    (([⟨1, [1, 2, 3, 4, 5, 6], 7⟩, ⟨2, [4, 5, 6, 7, 8, 9], 10⟩,
       (⟨3, [1, 2, 3, 10, 11, 12], 13⟩ : DrawRec)] ≠ []) ∧
      (∀ r ∈ [⟨1, [1, 2, 3, 4, 5, 6], 7⟩, ⟨2, [4, 5, 6, 7, 8, 9], 10⟩,
        (⟨3, [1, 2, 3, 10, 11, 12], 13⟩ : DrawRec)], r.numbers.length = 6)) ∧
    (Finset.range 7).sum
      (fun c => carryover_counts
        [⟨1, [1, 2, 3, 4, 5, 6], 7⟩, ⟨2, [4, 5, 6, 7, 8, 9], 10⟩,
         ⟨3, [1, 2, 3, 10, 11, 12], 13⟩] c) =
      ([⟨1, [1, 2, 3, 4, 5, 6], 7⟩, ⟨2, [4, 5, 6, 7, 8, 9], 10⟩,
        (⟨3, [1, 2, 3, 10, 11, 12], 13⟩ : DrawRec)] : List DrawRec).length - 1 :=
  ⟨⟨by decide, by decide⟩,
    carryover_counts_sum
      [⟨1, [1, 2, 3, 4, 5, 6], 7⟩, ⟨2, [4, 5, 6, 7, 8, 9], 10⟩,
       ⟨3, [1, 2, 3, 10, 11, 12], 13⟩] (by decide) (by decide)⟩

/-- LottoAnalyzer._get_file_path: only rounds 1..1000 and 1001..2000 are
mapped to a file path; every other round yields None. -/
def get_file_path (round_num : Nat) : Option String :=
  if 1 ≤ round_num ∧ round_num ≤ 1000 then
    some ("lotto_data/1-1000/" ++ toString round_num ++ ".lotto")
  else if 1001 ≤ round_num ∧ round_num ≤ 2000 then
    some ("lotto_data/1001-2000/" ++ toString round_num ++ ".lotto")
  else none

/-- crawler.get_round_folder: the storage folder of a round, computed from
start = ((round_num - 1) // 1000) * 1000 + 1 and end = start + 999 for any
positive round. -/
def get_round_folder (round_num : Nat) : String :=
  "lotto_data/" ++ toString (((round_num - 1) / 1000) * 1000 + 1) ++ "-" ++
    toString (((round_num - 1) / 1000) * 1000 + 1 + 999)

/-- LottoAnalyzer._load_all_data with the filesystem modelled as a partial
map from path to parsed record: every round of start..end is resolved by
_get_file_path, rounds whose path exists and parses contribute their
record, and the collected list is stably sorted by round. -/
def load_all_data (store : String → Option DrawRec)
    (start_round end_round : Nat) : List DrawRec :=
  List.insertionSort (fun a b => a.round ≤ b.round)
    ((List.range' start_round (end_round + 1 - start_round)).filterMap
      (fun r => match get_file_path r with
        | none => none
        | some path => store path))

/-- C10: rounds above 2000 resolve to no path, so the analyzer silently
loads nothing beyond round 2000 — loading start..end gives exactly the same
data as loading start..min end 2000 regardless of what the store holds —
even though the crawler's folder mapping places every positive round in its
1000-round group folder. -/
theorem rounds_above_2000_excluded :
    (∀ r : Nat, 2000 < r → get_file_path r = none) ∧
    (∀ (store : String → Option DrawRec) (s e : Nat),
      load_all_data store s e = load_all_data store s (min e 2000)) ∧
    (∀ r : Nat, 1 ≤ r → ∃ s : Nat, s % 1000 = 1 ∧ s ≤ r ∧ r ≤ s + 999 ∧
      get_round_folder r =
        "lotto_data/" ++ toString s ++ "-" ++ toString (s + 999)) := by
  have hnone : ∀ r : Nat, 2000 < r → get_file_path r = none := by
    intro r hr
    unfold get_file_path
    rw [if_neg (by omega), if_neg (by omega)]
  refine ⟨hnone, ?_, ?_⟩
  · intro store s e
    unfold load_all_data
    by_cases he : e ≤ 2000
    · rw [min_eq_left he]
    · rw [min_eq_right (by omega : (2000 : Nat) ≤ e)]
      by_cases hs : s ≤ 2001
      · have hsum : e + 1 - s = (e - 2000) + (2001 - s) := by omega
        rw [hsum, ← List.range'_append, List.filterMap_append]
        have hnil : (List.range' (s + 1 * (2001 - s)) (e - 2000)).filterMap
            (fun r => match get_file_path r with
              | none => none
              | some path => store path) = [] := by
          rw [List.filterMap_eq_nil]
          intro r hr
          rw [List.mem_range'_1] at hr
          rw [hnone r (by omega)]
        rw [hnil, List.append_nil]
      · have h1 : (List.range' s (e + 1 - s)).filterMap
            (fun r => match get_file_path r with
              | none => none
              | some path => store path) = [] := by
          rw [List.filterMap_eq_nil]
          intro r hr
          rw [List.mem_range'_1] at hr
          rw [hnone r (by omega)]
        have h2 : (List.range' s (2000 + 1 - s)).filterMap
            (fun r => match get_file_path r with
              | none => none
              | some path => store path) = [] := by
          rw [List.filterMap_eq_nil]
          intro r hr
          rw [List.mem_range'_1] at hr
          rw [hnone r (by omega)]
        rw [h1, h2]
  · intro r hr
    refine ⟨((r - 1) / 1000) * 1000 + 1, by omega, by omega, by omega, rfl⟩

/-- Concrete witness for C10 at round 2500 with an empty store. -/
theorem rounds_above_2000_excluded_witness :
    ((2000 : Nat) < 2500) ∧ get_file_path 2500 = none ∧
    load_all_data (fun _ => none) 1 2500 =
      load_all_data (fun _ => none) 1 (min 2500 2000) ∧
    ((1 : Nat) ≤ 2500) ∧
    (∃ s : Nat, s % 1000 = 1 ∧ s ≤ 2500 ∧ 2500 ≤ s + 999 ∧
      get_round_folder 2500 =
        "lotto_data/" ++ toString s ++ "-" ++ toString (s + 999)) :=
  ⟨by decide, rounds_above_2000_excluded.1 2500 (by decide),
    rounds_above_2000_excluded.2.1 (fun _ => none) 1 2500, by decide,
    rounds_above_2000_excluded.2.2 2500 (by decide)⟩
